import Mathlib

/-!
Verification of the kgbsorter lock-state reconciliation engine.

The Python source operates on a live filesystem through a small set of
primitives: existence, file and directory probes, stat (inode and mtime),
mkdir, remove, recursive directory removal, and hardlink creation.  We give
a shallow embedding: a filesystem is a finite association list from
absolute paths (segment lists) to nodes.  A node is a directory, a regular
file carrying an inode number and an mtime, or some other kind of node
(device node, socket, ...).  Hardlinks are files sharing one inode number.
The algorithms of kgbsorta/nodes.py, kgbsorta/kgbsorta.py, nodes.py and
old.py are transcribed over these primitives, and the properties of the
specification are proved about the transcriptions.
-/

/-- An absolute or relative filesystem path (FPath), as its ordered list of
segments.  The Python code manipulates slash-joined strings; splitting on
the separator gives exactly this list. -/
abbrev FPath := List String

/-- One filesystem node: a directory, a regular file with its inode number
and its modification time (seconds), or a node of any other kind (device
node, socket, ...).  Regular files are the only nodes whose inode number
the algorithms ever read, so the inode is carried on files. -/
inductive Node where
  | dir : Node
  | file (ino : Nat) (mtime : Int) : Node
  | other : Node
deriving DecidableEq

/-- Errors raised by the Python code: IOError for a missing share or store
directory, OSError from a failing filesystem call, NotImplementedError for
a node of unexpected kind at the leaf, and AttributeError from reading an
attribute that does not exist. -/
inductive Err where
  | notFound : Err
  | osError : Err
  | notImplemented : Err
  | attrError : Err
deriving DecidableEq

/-- A filesystem state: a finite map from paths to nodes, as an
association list.  Every probe in the Python code is a direct syscall at
call time; here every probe is a lookup in this list. -/
structure FS where
  nodes : List (FPath × Node)
deriving DecidableEq

deriving instance DecidableEq for Except

/-- Decidable: the path given first is a leading portion (a path-segment
list that the second starts with) of the path given second. -/
def leads : FPath → FPath → Bool
  | [], _ => true
  | _ :: _, [] => false
  | a :: as, b :: bs => a == b && leads as bs

namespace FS

/-- Look a path up in the filesystem. -/
def find (fs : FS) (p : FPath) : Option Node :=
  (fs.nodes.find? (fun e => decide (e.1 = p))).map (fun e => e.2)

/-- os.path.exists -/
def existsP (fs : FS) (p : FPath) : Bool :=
  (fs.find p).isSome

/-- os.path.isfile -/
def isFileP (fs : FS) (p : FPath) : Bool :=
  match fs.find p with
  | some (.file _ _) => true
  | _ => false

/-- os.path.isdir -/
def isDirP (fs : FS) (p : FPath) : Bool :=
  match fs.find p with
  | some .dir => true
  | _ => false

/-- os.stat(p).st_ino.  The algorithms only ever stat regular files (the
store leaf is checked to be a file first, and the source node of every
operation is a regular share file), so the inode projection is defined on
regular files. -/
def statIno (fs : FS) (p : FPath) : Option Nat :=
  match fs.find p with
  | some (.file i _) => some i
  | _ => none

/-- os.path.getmtime, defined on the regular files the cleanup walks. -/
def statMtime (fs : FS) (p : FPath) : Option Int :=
  match fs.find p with
  | some (.file _ t) => some t
  | _ => none

/-- Add one entry to the filesystem. -/
def insert (fs : FS) (p : FPath) (n : Node) : FS :=
  ⟨(p, n) :: fs.nodes⟩

/-- Drop the entry at exactly the given path. -/
def erase (fs : FS) (p : FPath) : FS :=
  ⟨fs.nodes.filter (fun e => !(decide (e.1 = p)))⟩

/-- Drop the entry at the given path and every entry beneath it. -/
def eraseTree (fs : FS) (p : FPath) : FS :=
  ⟨fs.nodes.filter (fun e => !(leads p e.1))⟩

/-- os.mkdir: fails when the target already exists or when its parent is
not an existing directory. -/
def mkdir (fs : FS) (p : FPath) : Except Err FS :=
  if fs.existsP p then .error .osError
  else if fs.isDirP p.dropLast then .ok (fs.insert p .dir)
  else .error .osError

/-- os.remove: fails when the target is absent or is a directory. -/
def removeF (fs : FS) (p : FPath) : Except Err FS :=
  match fs.find p with
  | none => .error .osError
  | some .dir => .error .osError
  | some _ => .ok (fs.erase p)

/-- shutil.rmtree: fails when the target is not a directory, otherwise
removes the directory and everything beneath it. -/
def rmtree (fs : FS) (p : FPath) : Except Err FS :=
  if fs.isDirP p then .ok (fs.eraseTree p) else .error .osError

/-- os.link src dst: fails when the source is not a regular file, when the
destination already exists, or when the destination parent is not an
existing directory; otherwise the destination becomes a new name for the
same inode. -/
def link (fs : FS) (src dst : FPath) : Except Err FS :=
  match fs.find src with
  | some (.file i t) =>
    if fs.existsP dst then .error .osError
    else if fs.isDirP dst.dropLast then .ok (fs.insert dst (.file i t))
    else .error .osError
  | _ => .error .osError

end FS

/-- traverse_path (kgbsorta/nodes.py lines 5-21): successive deeper
leading portions of a relative path, read left to right.  On foo/bar/baz
it yields foo, foo/bar, foo/bar/baz. -/
def traverse_path : List String → List (List String)
  | [] => []
  | s :: rest => [s] :: (traverse_path rest).map (fun q => s :: q)

/-- Share.check_link (kgbsorta/nodes.py lines 90-113, identically
nodes.py lines 57-80), as the loop body over the traverse_path list.  For
a non-final portion the store node must exist and be a directory, else the
loop breaks and the function returns False.  For the final portion the
store node must exist and be a regular file, else break; its inode is then
compared with the inode of the source node, returning True on a match and
falling through the end of the loop (returning False) otherwise. -/
def check_loop (fs : FS) (base : FPath) (rel : List String) (src : FPath) :
    List (List String) → Except Err Bool
  | [] => .ok false
  | sub :: rest =>
    let node := base ++ sub
    if sub.length = rel.length then
      if fs.existsP node && fs.isFileP node then
        match fs.statIno node, fs.statIno src with
        | some i, some j =>
          if i = j then .ok true else check_loop fs base rel src rest
        | _, _ => .error .osError
      else .ok false
    else
      if fs.existsP node && fs.isDirP node then check_loop fs base rel src rest
      else .ok false

/-- Share.check_link: walk every leading portion of rel beneath base. -/
def check_link (fs : FS) (base : FPath) (rel : List String) (src : FPath) :
    Except Err Bool :=
  check_loop fs base rel src (traverse_path rel)

/-- The branch arm of Share.ensure_link (kgbsorta/nodes.py lines 146-152):
an absent node is created as a directory; an existing regular file is
removed and replaced by a directory; anything else (a directory, or a node
of any other kind) is left as it is and the loop continues. -/
def branch_step (fs : FS) (node : FPath) : Except Err FS :=
  if !(fs.existsP node) then fs.mkdir node
  else if fs.isFileP node then
    match fs.removeF node with
    | .ok fs1 => fs1.mkdir node
    | .error e => .error e
  else .ok fs

/-- The leaf arm of Share.ensure_link (kgbsorta/nodes.py lines 129-144):
an absent leaf is hardlinked from the source and True is returned; an
existing regular file with the same inode falls through the loop (the leaf
portion is the last one) and False is returned, while a different inode
means remove, relink, return True; an existing directory is recursively
removed (rmdir with force, i.e. shutil.rmtree) and relinked, True; any
other node kind raises NotImplementedError. -/
def leaf_step (fs : FS) (node src : FPath) : Except Err (FS × Bool) :=
  if !(fs.existsP node) then
    match fs.link src node with
    | .ok fs2 => .ok (fs2, true)
    | .error e => .error e
  else if fs.isFileP node then
    match fs.statIno node, fs.statIno src with
    | some i, some j =>
      if i = j then .ok (fs, false)
      else
        match fs.removeF node with
        | .ok fs1 =>
          match fs1.link src node with
          | .ok fs2 => .ok (fs2, true)
          | .error e => .error e
        | .error e => .error e
    | _, _ => .error .osError
  else if fs.isDirP node then
    match fs.rmtree node with
    | .ok fs1 =>
      match fs1.link src node with
      | .ok fs2 => .ok (fs2, true)
      | .error e => .error e
    | .error e => .error e
  else .error .notImplemented

/-- Share.ensure_link (kgbsorta/nodes.py lines 115-154) as the loop over
the traverse_path list, threading the filesystem state. -/
def ensure_loop (base : FPath) (rel : List String) (src : FPath) :
    FS → List (List String) → Except Err (FS × Bool)
  | fs, [] => .ok (fs, false)
  | fs, sub :: rest =>
    let node := base ++ sub
    if sub.length = rel.length then leaf_step fs node src
    else
      match branch_step fs node with
      | .ok fs1 => ensure_loop base rel src fs1 rest
      | .error e => .error e

/-- Share.ensure_link: make the store hold a hardlink of src at rel. -/
def ensure_link (fs : FS) (base : FPath) (rel : List String) (src : FPath) :
    Except Err (FS × Bool) :=
  ensure_loop base rel src fs (traverse_path rel)

/-- Share.ensure_unlink (kgbsorta/nodes.py lines 156-173, identically
nodes.py lines 123-132): when check_link holds, remove the node at rel
beneath base and return True, otherwise return False without change. -/
def ensure_unlink (fs : FS) (base : FPath) (rel : List String) (src : FPath) :
    Except Err (FS × Bool) :=
  match check_link fs base rel src with
  | .ok true =>
    match fs.removeF (base ++ rel) with
    | .ok fs1 => .ok (fs1, true)
    | .error e => .error e
  | .ok false => .ok (fs, false)
  | .error e => .error e

/-- ChildNode.older_than (kgbsorta/nodes.py lines 271-277): the timedelta
arrow.now() - arrow.get(mtime) measured in whole days (floor division of
the elapsed seconds, as timedelta.days floors) compared strictly with the
given number of days. -/
def older_than (fs : FS) (p : FPath) (now : Int) (days : Int) : Except Err Bool :=
  match fs.statMtime p with
  | some t => .ok (Int.fdiv (now - t) 86400 > days)
  | none => .error .osError

/-- Share.subs / ChildNode.subs (kgbsorta/nodes.py lines 65-77): the
os.walk enumeration of every regular file beneath a root, as relative
paths. -/
def FS.subs (fs : FS) (root : FPath) : List FPath :=
  fs.nodes.filterMap (fun e =>
    match e.2 with
    | .file _ _ =>
      if leads root e.1 && !(decide (e.1 = root)) then some (e.1.drop root.length)
      else none
    | _ => none)

/-- Share.store (kgbsorta/nodes.py lines 79-88): the store root sits next
to the share root, same name with a leading dot. -/
def store_of (p : FPath) : FPath :=
  match p.getLast? with
  | some b => p.dropLast ++ ["." ++ b]
  | none => ["."]

/-- Share constructor (kgbsorta/nodes.py lines 27-35): the canonicalized
path must be an existing directory, else IOError (NotFound) is raised.
Canonicalization (abspath, realpath) is the identity here: paths are
already absolute and symbolic links are out of scope. -/
def share_init (fs : FS) (p : FPath) : Except Err FPath :=
  if fs.isDirP p then .ok p else .error .notFound

/-- Share constructor of the older variant (nodes.py lines 14-19).  Its
guard reads: if not exists(path) and isdir(path) then raise.  A missing
path is never a directory, so the conjunction is never true. -/
def share_init_legacy (fs : FS) (p : FPath) : Except Err FPath :=
  if !(fs.existsP p) && fs.isDirP p then .error .notFound else .ok p

/-- Phase 1 of KgbSorta.cleanup (kgbsorta/kgbsorta.py lines 170-173):
for every file enumerated beneath the store, ensure_link it back beneath
the share; stop at the first error, keeping the state reached. -/
def phase1 (shareRoot storeRoot : FPath) :
    FS → List FPath → FS × Option Err
  | fs, [] => (fs, none)
  | fs, rel :: rest =>
    match ensure_link fs shareRoot rel (storeRoot ++ rel) with
    | .ok (fs1, _) => phase1 shareRoot storeRoot fs1 rest
    | .error e => (fs, some e)

/-- Phase 2 of KgbSorta.cleanup (kgbsorta/kgbsorta.py lines 178-184): for
every file enumerated beneath the share, skip it when check_link holds
against the store; otherwise delete it when older_than days, and then try
to record it in the advisory manifest when older_than (days - 1).  The
recording line reads node.relpath, but ChildNode defines the attribute
rel_path and no relpath, so reaching that line raises AttributeError
before anything is written; and when the file was just deleted, the second
older_than call stats the deleted path and raises OSError.  Either way
the state reached and the manifest lines are kept. -/
def phase2 (shareRoot storeRoot : FPath) (now days : Int) :
    FS → List String → List FPath → FS × List String × Option Err
  | fs, tbd, [] => (fs, tbd, none)
  | fs, tbd, rel :: rest =>
    match check_link fs storeRoot rel (shareRoot ++ rel) with
    | .error e => (fs, tbd, some e)
    | .ok true => phase2 shareRoot storeRoot now days fs tbd rest
    | .ok false =>
      match older_than fs (shareRoot ++ rel) now days with
      | .error e => (fs, tbd, some e)
      | .ok true =>
        match fs.removeF (shareRoot ++ rel) with
        | .error e => (fs, tbd, some e)
        | .ok fs1 =>
          match older_than fs1 (shareRoot ++ rel) now (days - 1) with
          | .error e => (fs1, tbd, some e)
          | .ok true => (fs1, tbd, some .attrError)
          | .ok false => phase2 shareRoot storeRoot now days fs1 tbd rest
      | .ok false =>
        match older_than fs (shareRoot ++ rel) now (days - 1) with
        | .error e => (fs, tbd, some e)
        | .ok true => (fs, tbd, some .attrError)
        | .ok false => phase2 shareRoot storeRoot now days fs tbd rest

/-- The fixed header line written into to_be_deleted_soon.txt
(kgbsorta/kgbsorta.py line 168). -/
def cleanup_header : String :=
  "all files listed here will be deleted within the next 24h!"

/-- KgbSorta.cleanup (kgbsorta/kgbsorta.py lines 158-186): construct the
share and its store (each constructor checks its directory exists), open
the advisory manifest beneath the share root and write the header line,
then run phase 1 over the store enumeration and phase 2 over the share
enumeration.  The manifest contents are modelled as the list of lines
written so far. -/
def cleanup (fs : FS) (shareRoot : FPath) (now days : Int) :
    FS × List String × Option Err :=
  if !(fs.isDirP shareRoot) then (fs, [], some .notFound)
  else if !(fs.isDirP (store_of shareRoot)) then (fs, [], some .notFound)
  else
    match phase1 shareRoot (store_of shareRoot) fs (fs.subs (store_of shareRoot)) with
    | (fs1, some e) => (fs1, [cleanup_header], some e)
    | (fs1, none) =>
      phase2 shareRoot (store_of shareRoot) now days fs1 [cleanup_header]
        (fs1.subs shareRoot)

/-- chop_path (old.py lines 54-62): split off the first path segment. -/
def chop_path : List String → String × List String
  | [] => ("", [])
  | s :: rest => (s, rest)

/-- FSNode.check_link of the older variant (old.py lines 241-263): chop
the first segment; when nothing remains the chopped segment is the leaf,
which must exist and be a regular file, and the result is the comparison
of its inode with the inode of the source; otherwise the chopped segment
must exist and be a directory and the check recurses beneath it; in every
other case the result is False.  Only specified for a nonempty relative
path (the Python code asserts it). -/
def check_link_old (fs : FS) : FPath → List String → FPath → Except Err Bool
  | _, [], _ => .ok false
  | base, next :: restSegs, src =>
    let rest := (chop_path (next :: restSegs)).2
    let node := base ++ [(chop_path (next :: restSegs)).1]
    if rest.length = 0 then
      if fs.existsP node && fs.isFileP node then
        match fs.statIno node, fs.statIno src with
        | some i, some j => .ok (decide (i = j))
        | _, _ => .error .osError
      else .ok false
    else
      if fs.existsP node && fs.isDirP node then check_link_old fs node rest src
      else .ok false

/-- The lock relation in the words of the specification (section 4.3):
every non-final segment must exist beneath the store root as a directory.
Transcribed from the specification, not from the code, to compare the code
against it. -/
def spec_branchesOk (fs : FS) (store : FPath) : List String → Bool
  | [] => true
  | [_] => true
  | s :: rest => fs.isDirP (store ++ [s]) && spec_branchesOk fs (store ++ [s]) rest

/-- The lock relation in the words of the specification (sections 3 and
4.3): the walk of every non-final segment succeeds, the store entry at the
relative path exists and is a regular file, and it has the same inode
number as the file at the same relative path under the share root.
Transcribed from the specification, not from the code. -/
def spec_locked (fs : FS) (store share : FPath) (rel : List String) : Bool :=
  spec_branchesOk fs store rel &&
    (match fs.find (store ++ rel), fs.find (share ++ rel) with
     | some (.file i _), some (.file j _) => i == j
     | _, _ => false)

/-- The empty filesystem, used by concrete counterexamples. -/
def wEmpty : FS := ⟨[]⟩

/-- A small filesystem with a share s and its store .s sitting next to it,
one locked file (hardlink pair with inode 2) and one unlocked file with
inode 1 and mtime 0; the root directory is its parent. -/
def wFS1 : FS :=
  ⟨[(["s"], Node.dir), ([".s"], Node.dir),
    (["s", "a"], Node.dir), ([".s", "a"], Node.dir),
    (["s", "a", "f.txt"], Node.file 1 0),
    ([".s", "a", "f.txt"], Node.file 1 0),
    (["s", "g.txt"], Node.file 3 0)]⟩

/-- A share and store with one unlocked aged file, nothing in the store. -/
def wFS2 : FS :=
  ⟨[(["s"], Node.dir), ([".s"], Node.dir),
    (["s", "f.txt"], Node.file 1 0)]⟩

/-- A store whose intermediate segment d is a node that is neither a file
nor a directory (a device node, say), with the share-side source file in
place. -/
def wFS3 : FS :=
  ⟨[(["s"], Node.dir), ([".s"], Node.dir),
    (["s", "d"], Node.dir), (["s", "d", "f"], Node.file 3 0),
    ([".s", "d"], Node.other)]⟩

/-- A store whose leaf entry is a node that is neither a file nor a
directory, beneath an intact directory chain. -/
def wFS4 : FS :=
  ⟨[(["s"], Node.dir), ([".s"], Node.dir),
    (["s", "f"], Node.file 3 0), ([".s", "f"], Node.other)]⟩

theorem leads_refl (l : FPath) : leads l l = true := by
  induction l with
  | nil => rfl
  | cons a as ih => simp [leads, ih]

theorem leads_append (a q : FPath) : leads a (a ++ q) = true := by
  induction a with
  | nil => rfl
  | cons x xs ih => simp [leads, ih]

theorem leads_trans {a b c : FPath} (h1 : leads a b = true)
    (h2 : leads b c = true) : leads a c = true := by
  induction a generalizing b c with
  | nil => rfl
  | cons x xs ih =>
    cases b with
    | nil => simp [leads] at h1
    | cons y ys =>
      cases c with
      | nil => simp [leads] at h2
      | cons z zs =>
        simp only [leads, Bool.and_eq_true, beq_iff_eq] at h1 h2 ⊢
        obtain ⟨rfl, h1⟩ := h1
        obtain ⟨rfl, h2⟩ := h2
        exact ⟨rfl, ih h1 h2⟩

theorem leads_length {a b : FPath} (h : leads a b = true) :
    a.length ≤ b.length := by
  induction a generalizing b with
  | nil => simp
  | cons x xs ih =>
    cases b with
    | nil => simp [leads] at h
    | cons y ys =>
      simp only [leads, Bool.and_eq_true, beq_iff_eq] at h
      simpa using ih h.2

theorem leads_of_append_left {a c p : FPath} (h : leads (a ++ c) p = true) :
    leads a p = true :=
  leads_trans (leads_append a c) h

theorem eq_append_of_leads {a p : FPath} (h : leads a p = true) :
    ∃ q, p = a ++ q := by
  induction a generalizing p with
  | nil => exact ⟨p, rfl⟩
  | cons x xs ih =>
    cases p with
    | nil => simp [leads] at h
    | cons y ys =>
      simp only [leads, Bool.and_eq_true, beq_iff_eq] at h
      obtain ⟨rfl, h⟩ := h
      obtain ⟨q, rfl⟩ := ih h
      exact ⟨q, rfl⟩

theorem ne_of_not_leads {base src : FPath} (h : leads base src = false)
    (q : FPath) : base ++ q ≠ src := by
  intro he
  rw [← he, leads_append] at h
  exact absurd h (by simp)

theorem leads_append_cons_false {base : FPath} {s : String} {p : FPath}
    (h : leads base p = false) : leads (base ++ [s]) p = false := by
  cases hl : leads (base ++ [s]) p
  · rfl
  · rw [leads_of_append_left hl] at h
    exact absurd h (by simp)

theorem not_leads_append_self {base : FPath} {s : String} :
    leads (base ++ [s]) base = false := by
  cases hl : leads (base ++ [s]) base
  · rfl
  · have := leads_length hl
    simp at this

theorem find?_filter_ne (q p : FPath) (l : List (FPath × Node)) :
    ((l.filter (fun e => !(decide (e.1 = q)))).find?
        (fun e => decide (e.1 = p))).map (fun e => e.2)
      = if p = q then none
        else (l.find? (fun e => decide (e.1 = p))).map (fun e => e.2) := by
  induction l with
  | nil => simp only [List.filter_nil, List.find?_nil, Option.map_none']; split <;> rfl
  | cons e l ih =>
    by_cases hq : e.1 = q <;> by_cases hp : e.1 = p <;>
      simp [List.filter_cons, List.find?_cons, hq, hp, ih] <;> simp_all

theorem find?_filter_leads (q p : FPath) (l : List (FPath × Node)) :
    ((l.filter (fun e => !(leads q e.1))).find?
        (fun e => decide (e.1 = p))).map (fun e => e.2)
      = if leads q p then none
        else (l.find? (fun e => decide (e.1 = p))).map (fun e => e.2) := by
  induction l with
  | nil => simp only [List.filter_nil, List.find?_nil, Option.map_none']; split <;> rfl
  | cons e l ih =>
    by_cases hq : leads q e.1 = true <;> by_cases hp : e.1 = p <;>
      simp [List.filter_cons, List.find?_cons, hq, hp, ih] <;> simp_all

theorem FS.find_insert (fs : FS) (q : FPath) (n : Node) (p : FPath) :
    (fs.insert q n).find p = if q = p then some n else fs.find p := by
  by_cases h : q = p <;> simp [FS.insert, FS.find, List.find?_cons, h]

theorem FS.find_erase (fs : FS) (q p : FPath) :
    (fs.erase q).find p = if p = q then none else fs.find p := by
  simpa [FS.erase, FS.find] using find?_filter_ne q p fs.nodes

theorem FS.find_eraseTree (fs : FS) (q p : FPath) :
    (fs.eraseTree q).find p = if leads q p then none else fs.find p := by
  simpa [FS.eraseTree, FS.find] using find?_filter_leads q p fs.nodes

theorem FS.mkdir_ok {fs : FS} {p : FPath} (h1 : fs.find p = none)
    (h2 : fs.isDirP p.dropLast = true) :
    fs.mkdir p = .ok (fs.insert p .dir) := by
  simp [FS.mkdir, FS.existsP, h1, h2]

theorem FS.removeF_ok {fs : FS} {p : FPath} {n : Node}
    (h : fs.find p = some n) (hn : n ≠ .dir) :
    fs.removeF p = .ok (fs.erase p) := by
  cases n <;> simp [FS.removeF, h] at hn ⊢

theorem FS.rmtree_ok {fs : FS} {p : FPath} (h : fs.find p = some .dir) :
    fs.rmtree p = .ok (fs.eraseTree p) := by
  simp [FS.rmtree, FS.isDirP, h]

theorem FS.link_ok {fs : FS} {src dst : FPath} {i : Nat} {t : Int}
    (hs : fs.find src = some (.file i t)) (hd : fs.find dst = none)
    (hp : fs.isDirP dst.dropLast = true) :
    fs.link src dst = .ok (fs.insert dst (.file i t)) := by
  simp [FS.link, FS.existsP, hs, hd, hp]

theorem check_loop_shift (fs : FS) (base : FPath) (s : String)
    (rel : List String) (src : FPath) (L : List (List String)) :
    check_loop fs base (s :: rel) src (L.map (fun q => s :: q))
      = check_loop fs (base ++ [s]) rel src L := by
  induction L with
  | nil => rfl
  | cons sub L ih =>
    have hnode : base ++ (s :: sub) = (base ++ [s]) ++ sub := by simp
    simp only [List.map_cons, check_loop, List.length_cons, Nat.add_right_cancel_iff,
      hnode, ih]

theorem ensure_loop_shift (base : FPath) (s : String) (rel : List String)
    (src : FPath) (L : List (List String)) (fs : FS) :
    ensure_loop base (s :: rel) src fs (L.map (fun q => s :: q))
      = ensure_loop (base ++ [s]) rel src fs L := by
  induction L generalizing fs with
  | nil => rfl
  | cons sub L ih =>
    have hnode : base ++ (s :: sub) = (base ++ [s]) ++ sub := by simp
    simp only [List.map_cons, ensure_loop, List.length_cons, Nat.add_right_cancel_iff,
      hnode]
    split
    · rfl
    · cases branch_step fs ((base ++ [s]) ++ sub) with
      | ok fs1 => exact ih fs1
      | error e => rfl

theorem check_link_single (fs : FS) (base : FPath) (r : String) (src : FPath) :
    check_link fs base [r] src
      = (if fs.existsP (base ++ [r]) && fs.isFileP (base ++ [r]) then
           match fs.statIno (base ++ [r]), fs.statIno src with
           | some i, some j => if i = j then Except.ok true else Except.ok false
           | some _, none => Except.error Err.osError
           | none, _ => Except.error Err.osError
         else Except.ok false) := by
  simp only [check_link, traverse_path, List.map_nil, check_loop, if_true]
  split
  · cases h1 : fs.statIno (base ++ [r]) <;> cases h2 : fs.statIno src <;>
      simp [h1, h2, check_loop]
  · rfl

theorem check_link_cons (fs : FS) (base : FPath) (s : String)
    (rest : List String) (src : FPath) (h : rest ≠ []) :
    check_link fs base (s :: rest) src
      = (if fs.existsP (base ++ [s]) && fs.isDirP (base ++ [s]) then
           check_link fs (base ++ [s]) rest src
         else Except.ok false) := by
  have hlen : ¬ ([s].length = (s :: rest).length) := by
    simp only [List.length_singleton, List.length_cons]
    intro hh
    exact h (List.eq_nil_of_length_eq_zero (Nat.add_right_cancel hh).symm)
  simp only [check_link, traverse_path, check_loop, hlen, if_false]
  split
  · exact check_loop_shift fs base s rest src (traverse_path rest)
  · rfl

theorem ensure_link_single (fs : FS) (base : FPath) (r : String) (src : FPath) :
    ensure_link fs base [r] src = leaf_step fs (base ++ [r]) src := by
  simp [ensure_link, traverse_path, ensure_loop]

theorem ensure_link_cons (fs : FS) (base : FPath) (s : String)
    (rest : List String) (src : FPath) (h : rest ≠ []) :
    ensure_link fs base (s :: rest) src
      = (match branch_step fs (base ++ [s]) with
         | .ok fs1 => ensure_link fs1 (base ++ [s]) rest src
         | .error e => .error e) := by
  have hlen : ¬ ([s].length = (s :: rest).length) := by
    simp only [List.length_singleton, List.length_cons]
    intro hh
    exact h (List.eq_nil_of_length_eq_zero (Nat.add_right_cancel hh).symm)
  simp only [ensure_link, traverse_path, ensure_loop, hlen, if_false]
  cases branch_step fs (base ++ [s]) with
  | ok fs1 => exact ensure_loop_shift base s rest src (traverse_path rest) fs1
  | error e => rfl

theorem check_link_eq_spec (fs : FS) (rel : List String) :
    ∀ (store share : FPath) (i : Nat) (t : Int), rel ≠ [] →
      fs.find (share ++ rel) = some (.file i t) →
      check_link fs store rel (share ++ rel)
        = .ok (spec_locked fs store share rel) := by
  induction rel with
  | nil => intro _ _ _ _ h; exact absurd rfl h
  | cons s rest ih =>
    intro store share i t _ hsrc
    cases rest with
    | nil =>
      rw [check_link_single]
      cases hn : fs.find (store ++ [s]) with
      | none =>
        simp [FS.existsP, FS.isFileP, spec_locked, spec_branchesOk, hn]
      | some n =>
        cases n with
        | file k u =>
          by_cases hk : k = i <;>
            simp [FS.existsP, FS.isFileP, FS.statIno, spec_locked,
              spec_branchesOk, hn, hsrc, hk]
        | dir =>
          simp [FS.existsP, FS.isFileP, spec_locked, spec_branchesOk, hn]
        | other =>
          simp [FS.existsP, FS.isFileP, spec_locked, spec_branchesOk, hn]
    | cons r rs =>
      rw [check_link_cons _ _ _ _ _ (by simp)]
      have hpath : share ++ (s :: r :: rs) = (share ++ [s]) ++ (r :: rs) :=
        List.append_cons share s (r :: rs)
      have hpath2 : store ++ (s :: r :: rs) = (store ++ [s]) ++ (r :: rs) :=
        List.append_cons store s (r :: rs)
      cases hn : fs.find (store ++ [s]) with
      | none =>
        simp [FS.existsP, FS.isDirP, spec_locked, spec_branchesOk, hn]
      | some n =>
        cases n with
        | dir =>
          rw [hpath] at hsrc
          have hcond : (fs.existsP (store ++ [s]) && fs.isDirP (store ++ [s])) = true := by
            simp [FS.existsP, FS.isDirP, hn]
          rw [if_pos hcond, hpath, ih (store ++ [s]) (share ++ [s]) i t (by simp) hsrc]
          congr 1
          simp only [spec_locked, spec_branchesOk, FS.isDirP, hn, hpath, hpath2]
          simp
        | file k u =>
          simp [FS.existsP, FS.isDirP, spec_locked, spec_branchesOk, hn]
        | other =>
          simp [FS.existsP, FS.isDirP, spec_locked, spec_branchesOk, hn]

theorem check_false_of_not_file (fs : FS) (rel : List String) :
    ∀ (base src : FPath), rel ≠ [] → fs.isFileP (base ++ rel) = false →
      check_link fs base rel src = .ok false := by
  induction rel with
  | nil => intro _ _ h; exact absurd rfl h
  | cons s rest ih =>
    intro base src _ hnf
    cases rest with
    | nil =>
      rw [check_link_single]
      simp [hnf]
    | cons r rs =>
      rw [check_link_cons _ _ _ _ _ (by simp)]
      split
      · have hpath : base ++ (s :: r :: rs) = (base ++ [s]) ++ (r :: rs) := by simp
        rw [hpath] at hnf
        exact ih (base ++ [s]) src (by simp) hnf
      · rfl

theorem check_false_of_branches (fs : FS) (rel : List String) :
    ∀ (store src : FPath), spec_branchesOk fs store rel = false →
      check_link fs store rel src = .ok false := by
  induction rel with
  | nil => intro _ _ h; exact absurd h (by simp [spec_branchesOk])
  | cons s rest ih =>
    intro store src hb
    cases rest with
    | nil => exact absurd hb (by simp [spec_branchesOk])
    | cons r rs =>
      rw [check_link_cons _ _ _ _ _ (by simp)]
      simp only [spec_branchesOk, Bool.and_eq_false_iff] at hb
      cases hb with
      | inl hd =>
        have hcond : (fs.existsP (store ++ [s]) && fs.isDirP (store ++ [s])) = false := by
          simp only [FS.isDirP] at hd
          cases hn : fs.find (store ++ [s]) with
          | none => simp [FS.existsP, hn]
          | some n =>
            rw [hn] at hd
            cases n with
            | dir => simp at hd
            | file k u => simp [FS.existsP, FS.isFileP, FS.isDirP, hn]
            | other => simp [FS.existsP, FS.isDirP, hn]
        have hnc : ¬ ((fs.existsP (store ++ [s]) && fs.isDirP (store ++ [s])) = true) := by
          rw [hcond]; simp
        rw [if_neg hnc]
      | inr hrec =>
        split
        · exact ih (store ++ [s]) src hrec
        · rfl

theorem spec_branchesOk_of (fs : FS) (rel : List String) :
    ∀ store : FPath,
      (∀ q : List String, q ≠ [] → leads q rel = true → q ≠ rel →
        fs.isDirP (store ++ q) = true) →
      spec_branchesOk fs store rel = true := by
  induction rel with
  | nil => intro _ _; rfl
  | cons s rest ih =>
    intro store h
    cases rest with
    | nil => rfl
    | cons r rs =>
      simp only [spec_branchesOk, Bool.and_eq_true]
      refine ⟨h [s] (by simp) (by simp [leads]) (by simp), ?_⟩
      apply ih
      intro q hq hle hne
      have hres := h (s :: q) (by simp) (by simpa [leads] using hle)
        (by simpa using hne)
      rw [List.append_cons] at hres
      exact hres

theorem spec_locked_store_file {fs : FS} {store share : FPath}
    {rel : List String} (h : spec_locked fs store share rel = true) :
    ∃ i u, fs.find (store ++ rel) = some (.file i u) := by
  simp only [spec_locked, Bool.and_eq_true] at h
  obtain ⟨-, h⟩ := h
  cases hn : fs.find (store ++ rel) with
  | none => rw [hn] at h; simp at h
  | some n =>
    cases n with
    | file k u => exact ⟨k, u, rfl⟩
    | dir => rw [hn] at h; simp at h
    | other => rw [hn] at h; simp at h

theorem check_link_eq_old (fs : FS) (rel : List String) :
    ∀ (base src : FPath), rel ≠ [] →
      check_link fs base rel src = check_link_old fs base rel src := by
  induction rel with
  | nil => intro _ _ h; exact absurd rfl h
  | cons s rest ih =>
    intro base src _
    cases rest with
    | nil =>
      rw [check_link_single]
      simp only [check_link_old, chop_path, List.length_nil, if_pos rfl]
      split
      · cases h1 : fs.statIno (base ++ [s]) with
        | none => simp [h1]
        | some i =>
          cases h2 : fs.statIno src with
          | none => simp [h1, h2]
          | some j => by_cases hij : i = j <;> simp [h1, h2, hij]
      · rfl
    | cons r rs =>
      rw [check_link_cons _ _ _ _ _ (by simp)]
      have hlen : ¬ ((chop_path (s :: r :: rs)).2.length = 0) := by simp [chop_path]
      simp only [check_link_old, chop_path, hlen, if_false]
      split
      · exact ih (base ++ [s]) src (by simp)
      · rfl

theorem leads_nil_right {q : FPath} (h : leads q [] = true) : q = [] := by
  cases q with
  | nil => rfl
  | cons a as => simp [leads] at h

theorem leads_cons_elim {q : List String} {s : String} {rest : List String}
    (hq : q ≠ []) (h : leads q (s :: rest) = true) :
    ∃ q', q = s :: q' ∧ leads q' rest = true := by
  cases q with
  | nil => exact absurd rfl hq
  | cons a as =>
    simp only [leads, Bool.and_eq_true, beq_iff_eq] at h
    exact ⟨as, by rw [h.1], h.2⟩

theorem dropLast_app (l : FPath) (a : String) : (l ++ [a]).dropLast = l := by
  simp

theorem ne_append_single (base : FPath) (s : String) : base ≠ base ++ [s] := by
  simp

theorem append_single_ne_cons {base : FPath} {s : String} {q : List String}
    (hq : q ≠ []) : base ++ [s] ≠ base ++ (s :: q) := by
  intro h
  have := List.append_cancel_left h
  simp at this
  exact hq this

theorem FS.isDirP_eq {fs : FS} {p : FPath} :
    fs.isDirP p = true ↔ fs.find p = some .dir := by
  unfold FS.isDirP
  cases h : fs.find p with
  | none => simp
  | some n => cases n <;> simp

theorem FS.isFileP_eq {fs : FS} {p : FPath} :
    fs.isFileP p = true ↔ ∃ i t, fs.find p = some (.file i t) := by
  unfold FS.isFileP
  cases h : fs.find p with
  | none => simp
  | some n => cases n <;> simp

theorem FS.existsP_eq {fs : FS} {p : FPath} :
    fs.existsP p = true ↔ (fs.find p).isSome := by
  simp [FS.existsP]

theorem singleton_no_proper (s : String) (P : List String → Prop)
    (q : List String) (hq : q ≠ []) (hle : leads q [s] = true)
    (hne : q ≠ [s]) : P q := by
  obtain ⟨q', rfl, hq'⟩ := leads_cons_elim hq hle
  rw [leads_nil_right hq'] at hne
  exact absurd rfl hne

theorem ensure_link_spec (rel : List String) :
    ∀ (fs : FS) (base src : FPath) (i : Nat) (t : Int),
      rel ≠ [] →
      fs.find src = some (.file i t) →
      fs.isDirP base = true →
      (∀ q : List String, q ≠ [] → leads q rel = true →
        fs.find (base ++ q) ≠ some .other) →
      leads base src = false →
      ∃ fs' b, ensure_link fs base rel src = .ok (fs', b)
        ∧ (∀ q : List String, q ≠ [] → leads q rel = true → q ≠ rel →
            fs'.find (base ++ q) = some .dir)
        ∧ (∃ u, fs'.find (base ++ rel) = some (.file i u))
        ∧ (∀ p : FPath, leads base p = false ∨ p = base → fs'.find p = fs.find p)
        ∧ (b = false ↔ ∃ u, fs.find (base ++ rel) = some (.file i u)) := by
  induction rel with
  | nil => intro _ _ _ _ _ h; exact absurd rfl h
  | cons s rest ih =>
    intro fs base src i t _ hsrc hdir hno hnl
    have hdirb : fs.find base = some .dir := FS.isDirP_eq.mp hdir
    have hne_src : base ++ [s] ≠ src := ne_of_not_leads hnl [s]
    cases rest with
    | nil =>
      rw [ensure_link_single]
      cases hn : fs.find (base ++ [s]) with
      | none =>
        have hlink : fs.link src (base ++ [s])
            = .ok (fs.insert (base ++ [s]) (.file i t)) :=
          FS.link_ok hsrc hn (by rw [dropLast_app]; exact hdir)
        refine ⟨fs.insert (base ++ [s]) (.file i t), true, ?_,
          singleton_no_proper s _, ⟨t, by simp [FS.find_insert]⟩, ?_, ?_⟩
        · simp [leaf_step, FS.existsP, hn, hlink]
        · intro p hp
          have hpn : ¬ (base ++ [s] = p) := by
            intro he
            cases hp with
            | inl h0 => exact ne_of_not_leads h0 [s] he
            | inr h0 => rw [h0] at he; exact (ne_append_single base s) he.symm
          rw [FS.find_insert, if_neg hpn]
        · simp [hn]
      | some n =>
        cases n with
        | file k u =>
          by_cases hk : k = i
          · subst hk
            refine ⟨fs, false, ?_, singleton_no_proper s _, ⟨u, hn⟩,
              fun p _ => rfl, ?_⟩
            · simp [leaf_step, FS.existsP, FS.isFileP, FS.statIno, hn, hsrc]
            · simp [hn]
          · have hrm : fs.removeF (base ++ [s]) = .ok (fs.erase (base ++ [s])) :=
              FS.removeF_ok hn (by simp)
            have hfsrc : (fs.erase (base ++ [s])).find src = some (.file i t) := by
              rw [FS.find_erase, if_neg (fun he => hne_src he.symm)]
              exact hsrc
            have hlink : (fs.erase (base ++ [s])).link src (base ++ [s])
                = .ok ((fs.erase (base ++ [s])).insert (base ++ [s]) (.file i t)) :=
              FS.link_ok hfsrc (by rw [FS.find_erase]; simp)
                (by rw [dropLast_app, FS.isDirP_eq, FS.find_erase,
                      if_neg (fun he => (ne_append_single base s) he)]
                    exact hdirb)
            refine ⟨(fs.erase (base ++ [s])).insert (base ++ [s]) (.file i t), true,
              ?_, singleton_no_proper s _, ⟨t, by simp [FS.find_insert]⟩, ?_, ?_⟩
            · simp [leaf_step, FS.existsP, FS.isFileP, FS.statIno, hn, hsrc, hk,
                hrm, hlink]
            · intro p hp
              have hpn : ¬ (base ++ [s] = p) := by
                intro he
                cases hp with
                | inl h0 => exact ne_of_not_leads h0 [s] he
                | inr h0 => rw [h0] at he; exact (ne_append_single base s) he.symm
              rw [FS.find_insert, if_neg hpn, FS.find_erase,
                if_neg (fun he => hpn he.symm)]
            · simp [hn, hk]
        | dir =>
          have hrt : fs.rmtree (base ++ [s]) = .ok (fs.eraseTree (base ++ [s])) :=
            FS.rmtree_ok hn
          have hls : leads (base ++ [s]) src = false := by
            cases hls : leads (base ++ [s]) src
            · rfl
            · rw [leads_of_append_left hls] at hnl
              exact absurd hnl (by simp)
          have hfsrc : (fs.eraseTree (base ++ [s])).find src = some (.file i t) := by
            rw [FS.find_eraseTree]
            simp [hls, hsrc]
          have hlink : (fs.eraseTree (base ++ [s])).link src (base ++ [s])
              = .ok ((fs.eraseTree (base ++ [s])).insert (base ++ [s]) (.file i t)) :=
            FS.link_ok hfsrc
              (by rw [FS.find_eraseTree]; simp [leads_refl])
              (by rw [dropLast_app, FS.isDirP_eq, FS.find_eraseTree]
                  simp [not_leads_append_self, hdirb])
          refine ⟨(fs.eraseTree (base ++ [s])).insert (base ++ [s]) (.file i t), true,
            ?_, singleton_no_proper s _, ⟨t, by simp [FS.find_insert]⟩, ?_, ?_⟩
          · simp [leaf_step, FS.existsP, FS.isFileP, FS.isDirP, hn, hrt, hlink]
          · intro p hp
            have hlp : leads (base ++ [s]) p = false := by
              cases hp with
              | inl h0 => exact leads_append_cons_false h0
              | inr h0 => rw [h0]; exact not_leads_append_self
            have hpn : ¬ (base ++ [s] = p) := by
              intro he
              rw [← he, leads_refl] at hlp
              exact absurd hlp (by simp)
            rw [FS.find_insert, if_neg hpn, FS.find_eraseTree]
            simp [hlp]
          · simp [hn]
        | other =>
          exact absurd hn (hno [s] (by simp) (by simp [leads]))
    | cons r rs =>
      rw [ensure_link_cons _ _ _ _ _ (by simp)]
      have hpq : ∀ q : List String, base ++ (s :: q) = (base ++ [s]) ++ q :=
        fun q => List.append_cons base s q
      have hnlp : leads (base ++ [s]) src = false := leads_append_cons_false hnl
      have hnode_ne : ∀ q : List String, q ≠ [] → base ++ [s] ≠ (base ++ [s]) ++ q := by
        intro q hq he
        have h0 := congrArg List.length he
        simp at h0
        exact hq h0
      cases hn : fs.find (base ++ [s]) with
      | none =>
        have hmk : fs.mkdir (base ++ [s]) = .ok (fs.insert (base ++ [s]) .dir) :=
          FS.mkdir_ok hn (by rw [dropLast_app]; exact hdir)
        have hstep : branch_step fs (base ++ [s]) = .ok (fs.insert (base ++ [s]) .dir) := by
          simp [branch_step, FS.existsP, hn, hmk]
        set fs1 := fs.insert (base ++ [s]) .dir with hfs1
        have hfind1 : ∀ p : FPath, base ++ [s] ≠ p → fs1.find p = fs.find p := by
          intro p hp
          rw [hfs1, FS.find_insert, if_neg hp]
        have hsrc1 : fs1.find src = some (.file i t) := by
          rw [hfind1 src hne_src]; exact hsrc
        have hdir1 : fs1.isDirP (base ++ [s]) = true := by
          rw [FS.isDirP_eq, hfs1, FS.find_insert, if_pos rfl]
        have hno1 : ∀ q : List String, q ≠ [] → leads q (r :: rs) = true →
            fs1.find ((base ++ [s]) ++ q) ≠ some .other := by
          intro q hq hle
          rw [hfind1 _ (hnode_ne q hq), ← hpq q]
          exact hno (s :: q) (by simp) (by simp [leads, hle])
        obtain ⟨fs', b, heq, hdirs, hleaf, hframe, hiff⟩ :=
          ih fs1 (base ++ [s]) src i t (by simp) hsrc1 hdir1 hno1 hnlp
        refine ⟨fs', b, ?_, ?_, ?_, ?_, ?_⟩
        · rw [hstep]; exact heq
        · intro q hq hle hne
          obtain ⟨q', rfl, hq'⟩ := leads_cons_elim hq hle
          rw [hpq q']
          cases hq'' : q' with
          | nil =>
            subst hq''
            have := hframe (base ++ [s]) (Or.inr rfl)
            rw [List.append_nil, this, hfs1, FS.find_insert, if_pos rfl]
          | cons a as =>
            subst hq''
            exact hdirs (a :: as) (by simp) hq' (fun he => hne (by rw [he]))
        · rw [hpq (r :: rs)]; exact hleaf
        · intro p hp
          have hp1 : leads (base ++ [s]) p = false ∨ p = base ++ [s] := by
            cases hp with
            | inl h0 => exact Or.inl (leads_append_cons_false h0)
            | inr h0 => rw [h0]; exact Or.inl not_leads_append_self
          rw [hframe p hp1]
          apply hfind1
          intro he
          cases hp with
          | inl h0 => exact ne_of_not_leads h0 [s] he
          | inr h0 => rw [h0] at he; exact (ne_append_single base s) he.symm
        · rw [hpq (r :: rs), hiff]
          constructor
          · rintro ⟨u, hu⟩
            rw [hfind1 _ (hnode_ne (r :: rs) (by simp))] at hu
            exact ⟨u, hu⟩
          · rintro ⟨u, hu⟩
            refine ⟨u, ?_⟩
            rw [hfind1 _ (hnode_ne (r :: rs) (by simp))]
            exact hu
      | some n =>
        cases n with
        | dir =>
          have hstep : branch_step fs (base ++ [s]) = .ok fs := by
            simp [branch_step, FS.existsP, FS.isFileP, hn]
          have hdir1 : fs.isDirP (base ++ [s]) = true := FS.isDirP_eq.mpr hn
          have hno1 : ∀ q : List String, q ≠ [] → leads q (r :: rs) = true →
              fs.find ((base ++ [s]) ++ q) ≠ some .other := by
            intro q hq hle
            rw [← hpq q]
            exact hno (s :: q) (by simp) (by simp [leads, hle])
          obtain ⟨fs', b, heq, hdirs, hleaf, hframe, hiff⟩ :=
            ih fs (base ++ [s]) src i t (by simp) hsrc hdir1 hno1 hnlp
          refine ⟨fs', b, ?_, ?_, ?_, ?_, ?_⟩
          · rw [hstep]; exact heq
          · intro q hq hle hne
            obtain ⟨q', rfl, hq'⟩ := leads_cons_elim hq hle
            rw [hpq q']
            cases hq'' : q' with
            | nil =>
              subst hq''
              have := hframe (base ++ [s]) (Or.inr rfl)
              rw [List.append_nil, this, hn]
            | cons a as =>
              subst hq''
              exact hdirs (a :: as) (by simp) hq' (fun he => hne (by rw [he]))
          · rw [hpq (r :: rs)]; exact hleaf
          · intro p hp
            have hp1 : leads (base ++ [s]) p = false ∨ p = base ++ [s] := by
              cases hp with
              | inl h0 => exact Or.inl (leads_append_cons_false h0)
              | inr h0 => rw [h0]; exact Or.inl not_leads_append_self
            exact hframe p hp1
          · rw [hpq (r :: rs)]
            exact hiff
        | file k u =>
          have hrm : fs.removeF (base ++ [s]) = .ok (fs.erase (base ++ [s])) :=
            FS.removeF_ok hn (by simp)
          have hmk : (fs.erase (base ++ [s])).mkdir (base ++ [s])
              = .ok ((fs.erase (base ++ [s])).insert (base ++ [s]) .dir) := by
            apply FS.mkdir_ok
            · rw [FS.find_erase]; simp
            · rw [dropLast_app, FS.isDirP_eq, FS.find_erase,
                if_neg (fun he => (ne_append_single base s) he)]
              exact hdirb
          have hstep : branch_step fs (base ++ [s])
              = .ok ((fs.erase (base ++ [s])).insert (base ++ [s]) .dir) := by
            simp [branch_step, FS.existsP, FS.isFileP, hn, hrm, hmk]
          set fs1 := (fs.erase (base ++ [s])).insert (base ++ [s]) .dir with hfs1
          have hfind1 : ∀ p : FPath, base ++ [s] ≠ p → fs1.find p = fs.find p := by
            intro p hp
            rw [hfs1, FS.find_insert, if_neg hp, FS.find_erase,
              if_neg (fun he => hp he.symm)]
          have hsrc1 : fs1.find src = some (.file i t) := by
            rw [hfind1 src hne_src]; exact hsrc
          have hdir1 : fs1.isDirP (base ++ [s]) = true := by
            rw [FS.isDirP_eq, hfs1, FS.find_insert, if_pos rfl]
          have hno1 : ∀ q : List String, q ≠ [] → leads q (r :: rs) = true →
              fs1.find ((base ++ [s]) ++ q) ≠ some .other := by
            intro q hq hle
            rw [hfind1 _ (hnode_ne q hq), ← hpq q]
            exact hno (s :: q) (by simp) (by simp [leads, hle])
          obtain ⟨fs', b, heq, hdirs, hleaf, hframe, hiff⟩ :=
            ih fs1 (base ++ [s]) src i t (by simp) hsrc1 hdir1 hno1 hnlp
          refine ⟨fs', b, ?_, ?_, ?_, ?_, ?_⟩
          · rw [hstep]; exact heq
          · intro q hq hle hne
            obtain ⟨q', rfl, hq'⟩ := leads_cons_elim hq hle
            rw [hpq q']
            cases hq'' : q' with
            | nil =>
              subst hq''
              have := hframe (base ++ [s]) (Or.inr rfl)
              rw [List.append_nil, this, hfs1, FS.find_insert, if_pos rfl]
            | cons a as =>
              subst hq''
              exact hdirs (a :: as) (by simp) hq' (fun he => hne (by rw [he]))
          · rw [hpq (r :: rs)]; exact hleaf
          · intro p hp
            have hp1 : leads (base ++ [s]) p = false ∨ p = base ++ [s] := by
              cases hp with
              | inl h0 => exact Or.inl (leads_append_cons_false h0)
              | inr h0 => rw [h0]; exact Or.inl not_leads_append_self
            rw [hframe p hp1]
            apply hfind1
            intro he
            cases hp with
            | inl h0 => exact ne_of_not_leads h0 [s] he
            | inr h0 => rw [h0] at he; exact (ne_append_single base s) he.symm
          · rw [hpq (r :: rs), hiff]
            constructor
            · rintro ⟨u', hu⟩
              rw [hfind1 _ (hnode_ne (r :: rs) (by simp))] at hu
              exact ⟨u', hu⟩
            · rintro ⟨u', hu⟩
              refine ⟨u', ?_⟩
              rw [hfind1 _ (hnode_ne (r :: rs) (by simp))]
              exact hu
        | other =>
          exact absurd hn (hno [s] (by simp) (by simp [leads]))

theorem FS.removeF_ok_elim {fs fs' : FS} {p : FPath}
    (h : fs.removeF p = .ok fs') : fs' = fs.erase p := by
  unfold FS.removeF at h
  cases hf : fs.find p with
  | none => rw [hf] at h; exact absurd h (by simp)
  | some n =>
    rw [hf] at h
    cases n with
    | dir => exact absurd h (by simp)
    | file i t => simpa using h.symm
    | other => simpa using h.symm

theorem FS.statMtime_elim {fs : FS} {p : FPath} {m : Int}
    (h : fs.statMtime p = some m) : ∃ i, fs.find p = some (.file i m) := by
  unfold FS.statMtime at h
  cases hf : fs.find p with
  | none => rw [hf] at h; exact absurd h (by simp)
  | some n =>
    rw [hf] at h
    cases n with
    | dir => exact absurd h (by simp)
    | other => exact absurd h (by simp)
    | file i t =>
      simp at h
      exact ⟨i, by rw [h]⟩

theorem mem_traverse_of_leads {q rel : List String} (hq : q ≠ [])
    (hle : leads q rel = true) : q ∈ traverse_path rel := by
  induction rel generalizing q with
  | nil =>
    cases q with
    | nil => exact absurd rfl hq
    | cons a as => simp [leads] at hle
  | cons s rest ih =>
    obtain ⟨q', rfl, hq'⟩ := leads_cons_elim hq hle
    cases hq'' : q' with
    | nil => subst hq''; simp [traverse_path]
    | cons a as =>
      subst hq''
      simp only [traverse_path, List.mem_cons, List.mem_map]
      exact Or.inr ⟨a :: as, ih (by simp) hq', rfl⟩

theorem check_after_ensure (fs1 : FS) (store share : FPath)
    (rel : List String) (i : Nat) (t : Int) (hrel : rel ≠ [])
    (hsrc : fs1.find (share ++ rel) = some (.file i t))
    (hdirs : ∀ q : List String, q ≠ [] → leads q rel = true → q ≠ rel →
      fs1.find (store ++ q) = some .dir)
    (hleaf : ∃ u, fs1.find (store ++ rel) = some (.file i u)) :
    check_link fs1 store rel (share ++ rel) = .ok true := by
  have hsl : spec_locked fs1 store share rel = true := by
    simp only [spec_locked, Bool.and_eq_true]
    refine ⟨spec_branchesOk_of fs1 rel store
      (fun q hq hle hne => FS.isDirP_eq.mpr (hdirs q hq hle hne)), ?_⟩
    obtain ⟨u, hu⟩ := hleaf
    rw [hu, hsrc]
    simp
  rw [check_link_eq_spec fs1 rel store share i t hrel hsrc, hsl]

theorem phase2_frame (shareRoot storeRoot : FPath) (now days : Int)
    (nodes : List FPath) :
    ∀ (fs : FS) (tbd : List String) (p : FPath),
      (∀ m ∈ nodes, p ≠ shareRoot ++ m) →
      ((phase2 shareRoot storeRoot now days fs tbd nodes).1).find p = fs.find p := by
  induction nodes with
  | nil => intro fs tbd p _; rfl
  | cons n rest ih =>
    intro fs tbd p hp
    have hpn : p ≠ shareRoot ++ n := hp n (by simp)
    have hprest : ∀ m ∈ rest, p ≠ shareRoot ++ m :=
      fun m hm => hp m (List.mem_cons_of_mem n hm)
    simp only [phase2]
    cases hc : check_link fs storeRoot n (shareRoot ++ n) with
    | error e => rfl
    | ok b =>
      cases b with
      | true => exact ih fs tbd p hprest
      | false =>
        cases h1 : older_than fs (shareRoot ++ n) now days with
        | error e => rfl
        | ok b1 =>
          cases b1 with
          | false =>
            cases h2 : older_than fs (shareRoot ++ n) now (days - 1) with
            | error e => rfl
            | ok b2 =>
              cases b2 with
              | true => rfl
              | false => exact ih fs tbd p hprest
          | true =>
            cases hrm : fs.removeF (shareRoot ++ n) with
            | error e => rfl
            | ok fs1 =>
              have hfs1 : fs1 = fs.erase (shareRoot ++ n) := FS.removeF_ok_elim hrm
              have hkeep : fs1.find p = fs.find p := by
                rw [hfs1, FS.find_erase, if_neg hpn]
              show (match older_than fs1 (shareRoot ++ n) now (days - 1) with
                | Except.error e => (fs1, tbd, some e)
                | Except.ok true => (fs1, tbd, some Err.attrError)
                | Except.ok false =>
                  phase2 shareRoot storeRoot now days fs1 tbd rest).1.find p
                  = fs.find p
              cases h2 : older_than fs1 (shareRoot ++ n) now (days - 1) with
              | error e => exact hkeep
              | ok b2 =>
                cases b2 with
                | true => exact hkeep
                | false => rw [ih fs1 tbd p hprest]; exact hkeep

/-- C1: Share.check_link decides, without error, exactly the lock relation
of the specification for a relative path whose share-side file exists:
every non-final segment must exist beneath the store root as a directory
and the final segment must exist, be a regular file, and carry the same
inode number as the share file at the same relative path; and whenever
some non-final segment is missing or is not a directory the result is
False for any source, never an error. -/
theorem claim_C1 (fs : FS) (store share : FPath) (rel : List String)
    (hrel : rel ≠ []) :
    (∀ i : Nat, ∀ t : Int, fs.find (share ++ rel) = some (Node.file i t) →
      check_link fs store rel (share ++ rel)
        = Except.ok (spec_locked fs store share rel))
    ∧ (∀ src : FPath, spec_branchesOk fs store rel = false →
      check_link fs store rel src = Except.ok false) :=
  ⟨fun i t hsrc => check_link_eq_spec fs rel store share i t hrel hsrc,
   fun src hb => check_false_of_branches fs rel store src hb⟩

/-- Witness for C1, at a concrete locked file of wFS1. -/
theorem claim_C1_w :
    check_link wFS1 [".s"] ["a", "f.txt"] (["s"] ++ ["a", "f.txt"])
      = Except.ok (spec_locked wFS1 [".s"] ["s"] ["a", "f.txt"]) :=
  (claim_C1 wFS1 [".s"] ["s"] ["a", "f.txt"] (by decide)).1 1 0 (by decide)

/-- C10: the recursive lock check of the old variant (old.py) and the
iterative lock check of the new variant (kgbsorta/nodes.py) return the
same result for every filesystem state, base root, nonempty relative path
and source node. -/
theorem claim_C10 (fs : FS) (base : FPath) (rel : List String) (src : FPath)
    (hrel : rel ≠ []) :
    check_link fs base rel src = check_link_old fs base rel src :=
  check_link_eq_old fs rel base src hrel

/-- Witness for C10 at a concrete input. -/
theorem claim_C10_w :
    check_link wFS1 [".s"] ["a", "f.txt"] ["s", "a", "f.txt"]
      = check_link_old wFS1 [".s"] ["a", "f.txt"] ["s", "a", "f.txt"] :=
  claim_C10 wFS1 [".s"] ["a", "f.txt"] ["s", "a", "f.txt"] (by decide)

/-- C9 (amended): in the current variant (kgbsorta/nodes.py) constructing
a Share succeeds exactly when the path is an existing directory and fails
with NotFound otherwise; in the older variant (nodes.py) the guard reads
"not exists(path) and isdir(path)", which is never true, so that
constructor never fails, for any path whatsoever. -/
theorem claim_C9 (fs : FS) (p : FPath) :
    ((∃ q, share_init fs p = Except.ok q) ↔ fs.find p = some Node.dir)
    ∧ (fs.find p ≠ some Node.dir → share_init fs p = Except.error Err.notFound)
    ∧ (∀ fs2 : FS, ∀ q : FPath, share_init_legacy fs2 q = Except.ok q) := by
  refine ⟨⟨?_, ?_⟩, ?_, ?_⟩
  · rintro ⟨q, hq⟩
    cases hd : fs.isDirP p with
    | true => exact FS.isDirP_eq.mp hd
    | false => simp [share_init, hd] at hq
  · intro hd
    exact ⟨p, by simp [share_init, FS.isDirP_eq.mpr hd]⟩
  · intro hnd
    have hd : fs.isDirP p = false := by
      cases hd : fs.isDirP p
      · rfl
      · exact absurd (FS.isDirP_eq.mp hd) hnd
    simp [share_init, hd]
  · intro fs2 q
    cases hf : fs2.find q with
    | none => simp [share_init_legacy, FS.existsP, FS.isDirP, hf]
    | some n => cases n <;> simp [share_init_legacy, FS.existsP, FS.isDirP, hf]

/-- Counterexample for C9 as stated: the older variant constructs a Share
from a path that does not exist at all, returning it with no NotFound
error. -/
theorem claim_C9_cx :
    share_init_legacy wEmpty ["missing"] = Except.ok ["missing"]
    ∧ wEmpty.find ["missing"] = none
    ∧ share_init_legacy wEmpty ["missing"] ≠ Except.error Err.notFound := by
  refine ⟨rfl, rfl, ?_⟩
  intro h
  rw [show share_init_legacy wEmpty ["missing"] = Except.ok ["missing"] from rfl] at h
  exact Except.noConfusion h

/-- Witness for C9: the current constructor rejects a missing path. -/
theorem claim_C9_w :
    share_init wEmpty ["absent"] = Except.error Err.notFound :=
  (claim_C9 wEmpty ["absent"]).2.1 (by decide)

/-- C6: ensure_unlink is a no-op returning False when the lock check
fails, and otherwise deletes exactly the store-side file at the relative
path, leaving every other node (in particular every intermediate store
directory) in place, and returns True. -/
theorem claim_C6 (fs : FS) (store share : FPath) (rel : List String)
    (i : Nat) (t : Int) (hrel : rel ≠ [])
    (hsrc : fs.find (share ++ rel) = some (Node.file i t)) :
    ∃ b, check_link fs store rel (share ++ rel) = Except.ok b
      ∧ (b = false →
          ensure_unlink fs store rel (share ++ rel) = Except.ok (fs, false))
      ∧ (b = true →
          ensure_unlink fs store rel (share ++ rel)
            = Except.ok (fs.erase (store ++ rel), true)
          ∧ (∀ p : FPath, p ≠ store ++ rel →
              (fs.erase (store ++ rel)).find p = fs.find p)
          ∧ (fs.erase (store ++ rel)).find (store ++ rel) = none) := by
  have hchk := check_link_eq_spec fs rel store share i t hrel hsrc
  refine ⟨spec_locked fs store share rel, hchk, ?_, ?_⟩
  · intro hb
    simp only [ensure_unlink, hchk, hb]
  · intro hb
    obtain ⟨k, u, hk⟩ := spec_locked_store_file hb
    refine ⟨?_, ?_, ?_⟩
    · simp only [ensure_unlink, hchk, hb, FS.removeF_ok hk (by simp)]
    · intro p hp
      rw [FS.find_erase, if_neg hp]
    · rw [FS.find_erase, if_pos rfl]

/-- Witness for C6 at the locked file of wFS1: the lock check holds and
unlink removes exactly the store copy. -/
theorem claim_C6_w :
    ∃ b, check_link wFS1 [".s"] ["a", "f.txt"] (["s"] ++ ["a", "f.txt"])
        = Except.ok b
      ∧ (b = false →
          ensure_unlink wFS1 [".s"] ["a", "f.txt"] (["s"] ++ ["a", "f.txt"])
            = Except.ok (wFS1, false))
      ∧ (b = true →
          ensure_unlink wFS1 [".s"] ["a", "f.txt"] (["s"] ++ ["a", "f.txt"])
            = Except.ok (wFS1.erase ([".s"] ++ ["a", "f.txt"]), true)
          ∧ (∀ p : FPath, p ≠ [".s"] ++ ["a", "f.txt"] →
              (wFS1.erase ([".s"] ++ ["a", "f.txt"])).find p = wFS1.find p)
          ∧ (wFS1.erase ([".s"] ++ ["a", "f.txt"])).find ([".s"] ++ ["a", "f.txt"])
              = none) :=
  claim_C6 wFS1 [".s"] ["s"] ["a", "f.txt"] 1 0 (by decide) (by decide)

/-- C2: ensure_link is idempotent on a regular share file: with the store
root an existing directory, no node of unexpected kind along the store
path, and the store tree not containing the share file, the first call
succeeds and leaves the path locked, and a second call returns False
(nothing newly created) and leaves the path locked. -/
theorem claim_C2 (fs : FS) (store share : FPath) (rel : List String)
    (i : Nat) (t : Int) (hrel : rel ≠ [])
    (hsrc : fs.find (share ++ rel) = some (Node.file i t))
    (hstore : fs.isDirP store = true)
    (hno : ∀ q ∈ traverse_path rel, fs.find (store ++ q) ≠ some Node.other)
    (hdisj : leads store (share ++ rel) = false) :
    ∃ fs1 b1 fs2,
      ensure_link fs store rel (share ++ rel) = Except.ok (fs1, b1)
      ∧ check_link fs1 store rel (share ++ rel) = Except.ok true
      ∧ ensure_link fs1 store rel (share ++ rel) = Except.ok (fs2, false)
      ∧ check_link fs2 store rel (share ++ rel) = Except.ok true := by
  have hno' : ∀ q : List String, q ≠ [] → leads q rel = true →
      fs.find (store ++ q) ≠ some Node.other :=
    fun q hq hle => hno q (mem_traverse_of_leads hq hle)
  obtain ⟨fs1, b1, heq1, hdirs1, hleaf1, hframe1, hiff1⟩ :=
    ensure_link_spec rel fs store (share ++ rel) i t hrel hsrc hstore hno' hdisj
  have hsrc1 : fs1.find (share ++ rel) = some (Node.file i t) := by
    rw [hframe1 (share ++ rel) (Or.inl hdisj)]; exact hsrc
  have hchk1 : check_link fs1 store rel (share ++ rel) = Except.ok true :=
    check_after_ensure fs1 store share rel i t hrel hsrc1 hdirs1 hleaf1
  have hstore1 : fs1.isDirP store = true := by
    rw [FS.isDirP_eq, hframe1 store (Or.inr rfl)]
    exact FS.isDirP_eq.mp hstore
  have hno1 : ∀ q : List String, q ≠ [] → leads q rel = true →
      fs1.find (store ++ q) ≠ some Node.other := by
    intro q hq hle
    by_cases hqr : q = rel
    · subst hqr
      obtain ⟨u, hu⟩ := hleaf1
      rw [hu]
      simp
    · rw [hdirs1 q hq hle hqr]
      simp
  obtain ⟨fs2, b2, heq2, hdirs2, hleaf2, hframe2, hiff2⟩ :=
    ensure_link_spec rel fs1 store (share ++ rel) i t hrel hsrc1 hstore1 hno1 hdisj
  have hb2 : b2 = false := hiff2.mpr hleaf1
  subst hb2
  have hsrc2 : fs2.find (share ++ rel) = some (Node.file i t) := by
    rw [hframe2 (share ++ rel) (Or.inl hdisj)]; exact hsrc1
  have hchk2 : check_link fs2 store rel (share ++ rel) = Except.ok true :=
    check_after_ensure fs2 store share rel i t hrel hsrc2 hdirs2 hleaf2
  exact ⟨fs1, b1, fs2, heq1, hchk1, heq2, hchk2⟩

/-- Witness for C2: locking the unlocked file of wFS2 twice. -/
theorem claim_C2_w :
    ∃ fs1 b1 fs2,
      ensure_link wFS2 [".s"] ["f.txt"] (["s"] ++ ["f.txt"]) = Except.ok (fs1, b1)
      ∧ check_link fs1 [".s"] ["f.txt"] (["s"] ++ ["f.txt"]) = Except.ok true
      ∧ ensure_link fs1 [".s"] ["f.txt"] (["s"] ++ ["f.txt"]) = Except.ok (fs2, false)
      ∧ check_link fs2 [".s"] ["f.txt"] (["s"] ++ ["f.txt"]) = Except.ok true :=
  claim_C2 wFS2 [".s"] ["s"] ["f.txt"] 1 0 (by decide) (by decide) (by decide)
    (by decide) (by decide)

/-- C7: locking then unlocking a regular share file restores the unlocked
state: ensure_link succeeds, ensure_unlink then reports True, afterwards
the lock check returns False, the share-side file is exactly as before,
and only the store-side file at the relative path was removed from the
post-lock state. -/
theorem claim_C7 (fs : FS) (store share : FPath) (rel : List String)
    (i : Nat) (t : Int) (hrel : rel ≠ [])
    (hsrc : fs.find (share ++ rel) = some (Node.file i t))
    (hstore : fs.isDirP store = true)
    (hno : ∀ q ∈ traverse_path rel, fs.find (store ++ q) ≠ some Node.other)
    (hdisj : leads store (share ++ rel) = false) :
    ∃ fs1 b1 fs2,
      ensure_link fs store rel (share ++ rel) = Except.ok (fs1, b1)
      ∧ ensure_unlink fs1 store rel (share ++ rel) = Except.ok (fs2, true)
      ∧ check_link fs2 store rel (share ++ rel) = Except.ok false
      ∧ fs2.find (share ++ rel) = fs.find (share ++ rel)
      ∧ (∀ p : FPath, p ≠ store ++ rel → fs2.find p = fs1.find p)
      ∧ fs2.find (store ++ rel) = none := by
  have hno' : ∀ q : List String, q ≠ [] → leads q rel = true →
      fs.find (store ++ q) ≠ some Node.other :=
    fun q hq hle => hno q (mem_traverse_of_leads hq hle)
  obtain ⟨fs1, b1, heq1, hdirs1, hleaf1, hframe1, hiff1⟩ :=
    ensure_link_spec rel fs store (share ++ rel) i t hrel hsrc hstore hno' hdisj
  have hsrc1 : fs1.find (share ++ rel) = some (Node.file i t) := by
    rw [hframe1 (share ++ rel) (Or.inl hdisj)]; exact hsrc
  have hchk1 : check_link fs1 store rel (share ++ rel) = Except.ok true :=
    check_after_ensure fs1 store share rel i t hrel hsrc1 hdirs1 hleaf1
  obtain ⟨u, hu⟩ := hleaf1
  have hrm : fs1.removeF (store ++ rel) = .ok (fs1.erase (store ++ rel)) :=
    FS.removeF_ok hu (by simp)
  have hunl : ensure_unlink fs1 store rel (share ++ rel)
      = Except.ok (fs1.erase (store ++ rel), true) := by
    simp only [ensure_unlink, hchk1, hrm]
  have hstne : ¬ (share ++ rel = store ++ rel) :=
    fun he => ne_of_not_leads hdisj rel he.symm
  have hsh2 : (fs1.erase (store ++ rel)).find (share ++ rel)
      = fs.find (share ++ rel) := by
    rw [FS.find_erase, if_neg hstne, hframe1 (share ++ rel) (Or.inl hdisj)]
  have hnone : (fs1.erase (store ++ rel)).find (store ++ rel) = none := by
    rw [FS.find_erase, if_pos rfl]
  have hchk2 : check_link (fs1.erase (store ++ rel)) store rel (share ++ rel)
      = Except.ok false := by
    apply check_false_of_not_file _ rel store _ hrel
    unfold FS.isFileP
    rw [hnone]
  refine ⟨fs1, b1, fs1.erase (store ++ rel), heq1, hunl, hchk2, hsh2, ?_, hnone⟩
  intro p hp
  rw [FS.find_erase, if_neg hp]

/-- Witness for C7: lock then unlock the unlocked file of wFS2. -/
theorem claim_C7_w :
    ∃ fs1 b1 fs2,
      ensure_link wFS2 [".s"] ["f.txt"] (["s"] ++ ["f.txt"]) = Except.ok (fs1, b1)
      ∧ ensure_unlink fs1 [".s"] ["f.txt"] (["s"] ++ ["f.txt"]) = Except.ok (fs2, true)
      ∧ check_link fs2 [".s"] ["f.txt"] (["s"] ++ ["f.txt"]) = Except.ok false
      ∧ fs2.find (["s"] ++ ["f.txt"]) = wFS2.find (["s"] ++ ["f.txt"])
      ∧ (∀ p : FPath, p ≠ [".s"] ++ ["f.txt"] → fs2.find p = fs1.find p)
      ∧ fs2.find ([".s"] ++ ["f.txt"]) = none :=
  claim_C7 wFS2 [".s"] ["s"] ["f.txt"] 1 0 (by decide) (by decide) (by decide)
    (by decide) (by decide)

/-- C3: phase 2 of cleanup never deletes a file that is locked at the
moment it is examined: when the lock check at its examination returns
True, the share file is still present, unchanged, once the pass over the
remaining files ends (however it ends), whatever its age. -/
theorem claim_C3 (fs : FS) (shareRoot storeRoot : FPath) (now days : Int)
    (tbd : List String) (n : FPath) (rest : List FPath) (nd : Node)
    (hl : check_link fs storeRoot n (shareRoot ++ n) = Except.ok true)
    (hnode : fs.find (shareRoot ++ n) = some nd)
    (hnotin : n ∉ rest) :
    ((phase2 shareRoot storeRoot now days fs tbd (n :: rest)).1).find
        (shareRoot ++ n) = some nd := by
  simp only [phase2, hl]
  rw [phase2_frame shareRoot storeRoot now days rest fs tbd (shareRoot ++ n)
    (fun m hm he => by
      have h0 := List.append_cancel_left he
      subst h0
      exact hnotin hm)]
  exact hnode

/-- Witness for C3: the locked aged pair of wFS1 survives a phase 2 pass
that also contains deletion work. -/
theorem claim_C3_w :
    ((phase2 ["s"] [".s"] (30 * 86400) 7 wFS1 [cleanup_header]
        (["a", "f.txt"] :: [["g.txt"]])).1).find (["s"] ++ ["a", "f.txt"])
      = some (Node.file 1 0) :=
  claim_C3 wFS1 ["s"] [".s"] (30 * 86400) 7 [cleanup_header] ["a", "f.txt"]
    [["g.txt"]] (Node.file 1 0) (by decide) (by decide) (by decide)

/-- C4: a share file that is unlocked when phase 2 examines it is removed
from the final state of the pass exactly when the floor of its elapsed
seconds since mtime in whole days exceeds, strictly, the configured number
of days; at or under that bound it is still present when the pass ends. -/
theorem claim_C4 (fs : FS) (shareRoot storeRoot : FPath) (now days : Int)
    (tbd : List String) (n : FPath) (rest : List FPath) (m : Int)
    (hunlocked : check_link fs storeRoot n (shareRoot ++ n) = Except.ok false)
    (hm : fs.statMtime (shareRoot ++ n) = some m)
    (hnotin : n ∉ rest) :
    (((phase2 shareRoot storeRoot now days fs tbd (n :: rest)).1).find
        (shareRoot ++ n) = none)
      ↔ Int.fdiv (now - m) 86400 > days := by
  obtain ⟨i, hfind⟩ := FS.statMtime_elim hm
  have hold : older_than fs (shareRoot ++ n) now days
      = Except.ok (decide (Int.fdiv (now - m) 86400 > days)) := by
    simp [older_than, hm]
  simp only [phase2, hunlocked, hold]
  by_cases hD : Int.fdiv (now - m) 86400 > days
  · have hrm : fs.removeF (shareRoot ++ n) = .ok (fs.erase (shareRoot ++ n)) :=
      FS.removeF_ok hfind (by simp)
    have h2 : older_than (fs.erase (shareRoot ++ n)) (shareRoot ++ n) now (days - 1)
        = Except.error Err.osError := by
      simp [older_than, FS.statMtime, FS.find_erase]
    rw [decide_eq_true hD]
    simp only [hrm, h2]
    constructor
    · intro _; exact hD
    · intro _
      rw [FS.find_erase, if_pos rfl]
  · have h2 : older_than fs (shareRoot ++ n) now (days - 1)
        = Except.ok (decide (Int.fdiv (now - m) 86400 > days - 1)) := by
      simp [older_than, hm]
    rw [decide_eq_false hD]
    simp only [h2]
    by_cases hD2 : Int.fdiv (now - m) 86400 > days - 1
    · rw [decide_eq_true hD2]
      constructor
      · intro hcontra
        rw [hfind] at hcontra
        exact Option.noConfusion hcontra
      · intro h0; exact absurd h0 hD
    · rw [decide_eq_false hD2]
      rw [phase2_frame shareRoot storeRoot now days rest fs tbd (shareRoot ++ n)
        (fun m2 hm2 he => by
          have h0 := List.append_cancel_left he
          subst h0
          exact hnotin hm2)]
      constructor
      · intro hcontra
        rw [hfind] at hcontra
        exact Option.noConfusion hcontra
      · intro h0; exact absurd h0 hD

/-- Witness for C4: the unlocked aged file of wFS1 is deleted. -/
theorem claim_C4_w :
    (((phase2 ["s"] [".s"] (30 * 86400) 7 wFS1 [cleanup_header]
        [["g.txt"]]).1).find (["s"] ++ ["g.txt"]) = none)
      ↔ Int.fdiv ((30 * 86400) - 0) 86400 > 7 :=
  claim_C4 wFS1 ["s"] [".s"] (30 * 86400) 7 [cleanup_header] ["g.txt"] [] 0
    (by decide) (by decide) (by decide)

theorem ensure_leaf_other (rel : List String) :
    ∀ (fs : FS) (store src : FPath),
      rel ≠ [] →
      (∀ q ∈ traverse_path rel, q ≠ rel → fs.isDirP (store ++ q) = true) →
      fs.find (store ++ rel) = some Node.other →
      ensure_link fs store rel src = Except.error Err.notImplemented := by
  induction rel with
  | nil => intro _ _ _ h; exact absurd rfl h
  | cons s rest ih =>
    intro fs store src _ hdirs hleaf
    cases rest with
    | nil =>
      rw [ensure_link_single]
      simp [leaf_step, FS.existsP, FS.isFileP, FS.isDirP, hleaf]
    | cons r rs =>
      rw [ensure_link_cons _ _ _ _ _ (by simp)]
      have hd : fs.find (store ++ [s]) = some Node.dir :=
        FS.isDirP_eq.mp (hdirs [s] (by simp [traverse_path]) (by simp))
      have hstep : branch_step fs (store ++ [s]) = .ok fs := by
        simp [branch_step, FS.existsP, FS.isFileP, hd]
      rw [hstep]
      show ensure_link fs (store ++ [s]) (r :: rs) src
        = Except.error Err.notImplemented
      apply ih fs (store ++ [s]) src (by simp)
      · intro q hq hne
        have hmem : (s :: q) ∈ traverse_path (s :: r :: rs) := by
          show (s :: q) ∈ [s] :: (traverse_path (r :: rs)).map (fun x => s :: x)
          exact List.mem_cons_of_mem _ (List.mem_map_of_mem _ hq)
        have hres := hdirs (s :: q) hmem (by simpa using hne)
        rw [List.append_cons] at hres
        exact hres
      · rw [← List.append_cons]
        exact hleaf

/-- C5 (amended): during ensure_link the UnexpectedNodeType failure
(NotImplementedError) occurs when the FINAL store segment exists but is
neither a regular file nor a directory, the branch segments before it
being intact directories.  A non-final segment of unexpected kind is not
detected by ensure_link: the branch arm skips it silently, and the
operation then fails with an ordinary OSError when it works beneath it
(see the counterexample for that half). -/
theorem claim_C5 (fs : FS) (store : FPath) (rel : List String) (src : FPath)
    (hrel : rel ≠ [])
    (hdirs : ∀ q ∈ traverse_path rel, q ≠ rel → fs.isDirP (store ++ q) = true)
    (hleaf : fs.find (store ++ rel) = some Node.other) :
    ensure_link fs store rel src = Except.error Err.notImplemented :=
  ensure_leaf_other rel fs store src hrel hdirs hleaf

/-- Counterexample for C5 as stated: in wFS3 the intermediate store
segment d is a device-style node, and ensure_link does not fail with
NotImplementedError (UnexpectedNodeType); it silently passes the branch
and fails with OSError from the hardlink call beneath it. -/
theorem claim_C5_cx :
    ensure_link wFS3 [".s"] ["d", "f"] ["s", "d", "f"] = Except.error Err.osError
    ∧ ensure_link wFS3 [".s"] ["d", "f"] ["s", "d", "f"]
        ≠ Except.error Err.notImplemented
    ∧ wFS3.find ([".s"] ++ ["d"]) = some Node.other := by
  refine ⟨by decide, by decide, by decide⟩

/-- Witness for C5 at the leaf device node of wFS4. -/
theorem claim_C5_w :
    ensure_link wFS4 [".s"] ["f"] ["s", "f"] = Except.error Err.notImplemented :=
  claim_C5 wFS4 [".s"] ["f"] ["s", "f"] (by decide)
    (by decide)
    (by decide)

/-- C8 (code bug): on a share holding one unlocked file whose age falls in
the advisory window (older than days - 1 but not than days), cleanup
reaches the advisory recording line, which reads the attribute relpath of
a ChildNode; the class defines rel_path and no relpath, so AttributeError
is raised: nothing is appended to the manifest (it holds only its header
line), no file changes, and the cleanup pass aborts. -/
theorem claim_C8 :
    cleanup wFS2 ["s"] (7 * 86400) 7
      = (wFS2, [cleanup_header], some Err.attrError) := by
  decide
